import Mathlib

/-!
Verification development for the `histogram` repository (src/histogram_nd.c).

Embedding conventions:
* C `double` values are modelled as exact rationals (`ℚ`); the numeric claims
  of the specification are stated in exact-arithmetic terms, and every concrete
  counterexample below uses inputs on which the C double computation is exact.
* C `int` counters and bin counts are modelled as `ℕ` (the program only ever
  stores non-negative counts in them); quantities that the program initialises
  with negative sentinels (`max_bin_seen = -1`, `min_bin_seen = INT_MAX`) are
  modelled as `ℤ`.
* The histogram buffer (`int *field`) is modelled as a total function
  `ℕ → ℕ` from linear cell index to stored count.
* Loops over `dim = 0 .. dims-1` on the global per-dimension arrays are
  modelled as structural recursion over lists, one list element per dimension
  in dimension order; `dims` is the common list length.
* Stream I/O is out of scope (spec section 6): the import phase consumes the
  list of already-scanned numeric tuples, and the output phase produces the
  list of emitted lines / bytes.
-/

/-! ### Flattened array store (set_pos / get_pos, histogram_nd.c lines 190-232) -/

/-- One step of the linear-index loop of `set_pos` / `get_pos`:
`ind += pos[dim] * offset; offset *= size[dim];` over the remaining dims. -/
def linIndexGo : List ℕ → List ℕ → ℕ → ℕ → ℕ
  | b :: bs, p :: ps, ind, offset => linIndexGo bs ps (ind + p * offset) (offset * b)
  | _, _, ind, _ => ind

/-- The linear cell index computed by `set_pos` and `get_pos`
(`offset = 1; ind = 0;` then the loop). -/
def linIndex (bins pos : List ℕ) : ℕ := linIndexGo bins pos 0 1

/-- Horner form of the linear index, used for the proofs. -/
def linHorner : List ℕ → List ℕ → ℕ
  | b :: bs, p :: ps => p + b * linHorner bs ps
  | _, _ => 0

/-- Total number of cells: `temp = 1; for dim: temp *= bins[dim];` (main). -/
def totalCells (bins : List ℕ) : ℕ := bins.prod

/-- Read accessor `get_pos` (field component). -/
def getPos (field : ℕ → ℕ) (bins pos : List ℕ) : ℕ := field (linIndex bins pos)

/-- The mutable state touched by `set_pos`: the histogram buffer plus the
min/max occupied-bin trackers (`min_bin_seen` / `max_bin_seen`). -/
structure HState where
  field : ℕ → ℕ
  minSeen : List ℤ
  maxSeen : List ℤ

/-- Write accessor `set_pos`: store `value` at the linear index and update the
per-dimension occupied-range trackers. -/
def setPos (st : HState) (value : ℕ) (bins pos : List ℕ) : HState :=
  { field := Function.update st.field (linIndex bins pos) value,
    minSeen := List.zipWith (fun mn p => if (p : ℤ) < mn then (p : ℤ) else mn) st.minSeen pos,
    maxSeen := List.zipWith (fun mx p => if (p : ℤ) > mx then (p : ℤ) else mx) st.maxSeen pos }

/-- The spec stride: `stride_0 = 1`, `stride_d = stride_(d-1) * bin_count_(d-1)`,
i.e. the product of the first `d` bin counts.  This definition follows the
words of spec section 3 and is compared against `linIndex` in claim C8. -/
def strideSpec (bins : List ℕ) (d : ℕ) : ℕ := ((bins.take d).prod)

/-- The spec linear index formula: `index = sum over d of i_d * stride_d`
(spec section 3); compared against the code index `linIndex` in claim C8. -/
def specLinIndex (bins pos : List ℕ) : ℕ :=
  ∑ d ∈ Finset.range pos.length, pos.getD d 0 * strideSpec bins d

/-! ### Position iterator (adv_pos, histogram_nd.c lines 235-253) -/

/-- The odometer advance `adv_pos`: increment dimension 0 first; on reaching
the bound reset the dimension to 0 and carry; the returned flag is the
overflow indicator (`dim >= dims`, i.e. the carry left the last dimension). -/
def advPos : List ℕ → List ℕ → List ℕ × Bool
  | b :: bs, p :: ps =>
      if p + 1 ≥ b then
        let r := advPos bs ps
        (0 :: r.1, r.2)
      else ((p + 1) :: ps, false)
  | _, _ => ([], true)

/-- The sequence of positions visited by a `do { ... } while (!adv_pos(...))`
loop starting at `pos`, with explicit fuel.  `totalCells bins` fuel is always
enough (proved below). -/
def posSeq (bins : List ℕ) : ℕ → List ℕ → List (List ℕ)
  | 0, _ => []
  | fuel + 1, pos =>
      pos ::
        (let r := advPos bins pos
         if r.2 then [] else posSeq bins fuel r.1)

/-- A position is valid when it is componentwise below the bin counts. -/
def validPosB : List ℕ → List ℕ → Bool
  | [], [] => true
  | b :: bs, p :: ps => decide (p < b) && validPosB bs ps
  | _, _ => false

/-- A position is maxed when every dimension sits at its last bin. -/
def maxedB : List ℕ → List ℕ → Bool
  | [], [] => true
  | b :: bs, p :: ps => decide (p + 1 = b) && maxedB bs ps
  | _, _ => false

/-! ### Lemmas about the linear index and the odometer -/

theorem linIndexGo_eq (bins : List ℕ) : ∀ (pos : List ℕ) (ind offset : ℕ),
    linIndexGo bins pos ind offset = ind + offset * linHorner bins pos := by
  induction bins with
  | nil => intro pos ind offset; cases pos <;> simp [linIndexGo, linHorner]
  | cons b bs ih =>
      intro pos ind offset
      cases pos with
      | nil => simp [linIndexGo, linHorner]
      | cons p ps =>
          simp only [linIndexGo, linHorner, ih]
          ring

theorem linIndex_eq_horner (bins pos : List ℕ) : linIndex bins pos = linHorner bins pos := by
  simp [linIndex, linIndexGo_eq]

theorem horner_lt_total (bins : List ℕ) : ∀ pos : List ℕ, validPosB bins pos = true →
    linHorner bins pos < totalCells bins := by
  induction bins with
  | nil =>
      intro pos h
      cases pos with
      | nil => simp [linHorner, totalCells]
      | cons p ps => simp [validPosB] at h
  | cons b bs ih =>
      intro pos h
      cases pos with
      | nil => simp [validPosB] at h
      | cons p ps =>
          simp only [validPosB, Bool.and_eq_true, decide_eq_true_eq] at h
          have h1 : linHorner bs ps + 1 ≤ totalCells bs := ih ps h.2
          have h2 : p + 1 ≤ b := h.1
          simp only [linHorner, totalCells, List.prod_cons]
          calc p + b * linHorner bs ps + 1 ≤ b - 1 + b * linHorner bs ps + 1 := by omega
            _ = b * (linHorner bs ps + 1) + (b - 1 + 1 - b) := by
                have hb : 1 ≤ b := by omega
                cases b with
                | zero => omega
                | succ n => ring_nf; omega
            _ ≤ b * totalCells bs + 0 := by
                have := Nat.mul_le_mul_left b h1
                omega
            _ = b * totalCells bs := by omega

theorem maxed_horner (bins : List ℕ) : ∀ pos : List ℕ, maxedB bins pos = true →
    linHorner bins pos + 1 = totalCells bins := by
  induction bins with
  | nil =>
      intro pos h
      cases pos with
      | nil => simp [linHorner, totalCells]
      | cons p ps => simp [maxedB] at h
  | cons b bs ih =>
      intro pos h
      cases pos with
      | nil => simp [maxedB] at h
      | cons p ps =>
          simp only [maxedB, Bool.and_eq_true, decide_eq_true_eq] at h
          obtain ⟨hp1, hp2⟩ := h
          have h1 := ih ps hp2
          simp only [linHorner, totalCells, List.prod_cons] at h1 ⊢
          subst hp1
          calc p + (p + 1) * linHorner bs ps + 1 = (p + 1) * (linHorner bs ps + 1) := by ring
            _ = (p + 1) * bs.prod := by rw [h1]

theorem advPos_flag (bins : List ℕ) : ∀ pos : List ℕ, validPosB bins pos = true →
    (advPos bins pos).2 = maxedB bins pos := by
  induction bins with
  | nil =>
      intro pos h
      cases pos with
      | nil => simp [advPos, maxedB]
      | cons p ps => simp [validPosB] at h
  | cons b bs ih =>
      intro pos h
      cases pos with
      | nil => simp [validPosB] at h
      | cons p ps =>
          simp only [validPosB, Bool.and_eq_true, decide_eq_true_eq] at h
          by_cases hc : p + 1 ≥ b
          · have hpb : p + 1 = b := by omega
            simp [advPos, hc, maxedB, hpb, ih ps h.2]
          · have hpb : ¬(p + 1 = b) := by omega
            simp [advPos, hc, maxedB, hpb]

theorem advPos_not_maxed (bins : List ℕ) : ∀ pos : List ℕ,
    validPosB bins pos = true → maxedB bins pos = false →
    validPosB bins (advPos bins pos).1 = true ∧
    linHorner bins (advPos bins pos).1 = linHorner bins pos + 1 := by
  induction bins with
  | nil =>
      intro pos h hm
      cases pos with
      | nil => simp [maxedB] at hm
      | cons p ps => simp [validPosB] at h
  | cons b bs ih =>
      intro pos h hm
      cases pos with
      | nil => simp [validPosB] at h
      | cons p ps =>
          simp only [validPosB, Bool.and_eq_true, decide_eq_true_eq] at h
          by_cases hc : p + 1 ≥ b
          · have hpb : p + 1 = b := by omega
            have hm2 : maxedB bs ps = false := by
              simp [maxedB, hpb] at hm
              exact hm
            obtain ⟨ihv, ihh⟩ := ih ps h.2 hm2
            have hb : 0 < b := by omega
            constructor
            · simp [advPos, hc, validPosB, hb, ihv]
            · simp only [advPos, hc, ge_iff_le, if_pos, linHorner, ihh]
              subst hpb
              ring
          · constructor
            · simp only [advPos, hc, if_neg]
              simp only [validPosB, Bool.and_eq_true, decide_eq_true_eq]
              exact ⟨by omega, h.2⟩
            · simp only [advPos, hc, if_neg, linHorner]
              omega

theorem posSeq_map {α : Type} (bins : List ℕ) (g : ℕ → α) :
    ∀ (fuel : ℕ) (pos : List ℕ), validPosB bins pos = true →
    totalCells bins - linHorner bins pos ≤ fuel →
    (posSeq bins fuel pos).map (fun q => g (linHorner bins q)) =
      (List.range' (linHorner bins pos) (totalCells bins - linHorner bins pos)).map g := by
  intro fuel
  induction fuel with
  | zero =>
      intro pos hv hf
      have := horner_lt_total bins pos hv
      omega
  | succ fuel ih =>
      intro pos hv hf
      have hlt := horner_lt_total bins pos hv
      have hn : totalCells bins - linHorner bins pos =
          (totalCells bins - linHorner bins pos - 1) + 1 := by omega
      rw [hn, List.range'_succ]
      by_cases hm : maxedB bins pos = true
      · have h1 := maxed_horner bins pos hm
        have h0 : totalCells bins - linHorner bins pos - 1 = 0 := by omega
        simp only [posSeq, advPos_flag bins pos hv, hm, if_pos, h0]
        simp
      · have hm2 : maxedB bins pos = false := by
          cases hmb : maxedB bins pos
          · rfl
          · exact absurd hmb hm
        obtain ⟨hv2, hh2⟩ := advPos_not_maxed bins pos hv hm2
        simp only [posSeq, advPos_flag bins pos hv, hm2, if_neg, Bool.false_eq_true,
          not_false_iff, List.map_cons]
        have hfl : totalCells bins - linHorner bins (advPos bins pos).1 ≤ fuel := by
          rw [hh2]; omega
        have := ih (advPos bins pos).1 hv2 hfl
        rw [this, hh2]
        have : totalCells bins - (linHorner bins pos + 1) =
            totalCells bins - linHorner bins pos - 1 := by omega
        rw [this]

theorem zeros_valid (bins : List ℕ) (h : bins.all (fun b => decide (0 < b)) = true) :
    validPosB bins (List.replicate bins.length 0) = true := by
  induction bins with
  | nil => simp [validPosB]
  | cons b bs ih =>
      simp only [List.all_cons, Bool.and_eq_true, decide_eq_true_eq] at h
      simp only [List.length_cons, List.replicate_succ, validPosB, Bool.and_eq_true,
        decide_eq_true_eq]
      exact ⟨h.1, ih h.2⟩

theorem zeros_horner (bins : List ℕ) : linHorner bins (List.replicate bins.length 0) = 0 := by
  induction bins with
  | nil => simp [linHorner]
  | cons b bs ih => simp [List.replicate_succ, linHorner, ih]

/-! ### Binning engine (import, histogram_nd.c lines 256-346) -/

/-- Per-dimension membership test of the import loop:
`(vals[dim] >= low[dim]) && (vals[dim] < hi[dim])`. -/
def dimAccept (v l h : ℚ) : Bool := decide (v ≥ l) && decide (v < h)

/-- `in_range`: conjunction of the per-dimension membership tests
(initialised to 1 before the loop). -/
def inRange : List ℚ → List ℚ → List ℚ → Bool
  | v :: vs, l :: ls, h :: hs => dimAccept v l h && inRange vs ls hs
  | _, _, _ => true

/-- Per-dimension bin index: `(int)floor((vals[dim] - low[dim]) / size[dim])`. -/
def dimBin (v l s : ℚ) : ℤ := ⌊(v - l) / s⌋

/-- The bin-address tuple of an input tuple (the `pos[dim] = ...` loop). -/
def binPositions : List ℚ → List ℚ → List ℚ → List ℤ
  | v :: vs, l :: ls, s :: ss => dimBin v l s :: binPositions vs ls ss
  | _, _, _ => []

/-- The derived bin widths computed in `main`:
`size[dim] = (hi[dim] - low[dim]) / bins[dim]`. -/
def sizesOf : List ℚ → List ℚ → List ℕ → List ℚ
  | l :: ls, h :: hs, b :: bs => (h - l) / (b : ℚ) :: sizesOf ls hs bs
  | _, _, _ => []

/-- Validated configuration state (the conditions `parseOptions` enforces on
the per-dimension arrays): `low < hi` and `bins >= 1` in every dimension, with
the three arrays of equal length. -/
def cfgOkB : List ℚ → List ℚ → List ℕ → Bool
  | [], [], [] => true
  | l :: ls, h :: hs, b :: bs => decide (l < h) && decide (1 ≤ b) && cfgOkB ls hs bs
  | _, _, _ => false

/-- Per-dimension configuration of the core (the global arrays `low`, `hi`,
`bins`, restricted to the first `dims` entries). -/
structure Cfg where
  lows : List ℚ
  his : List ℚ
  bins : List ℕ

/-- The derived `size[]` array of a configuration. -/
def Cfg.sizes (c : Cfg) : List ℚ := sizesOf c.lows c.his c.bins

/-- Import-phase state: histogram state plus the `count` and `oor` counters. -/
structure ImpState where
  hs : HState
  count : ℕ
  oor : ℕ

/-- The body of the import loop for one successfully scanned tuple:
range test, bin addressing, increment of the addressed cell (via
`get_pos` / `set_pos`), and counter updates. -/
def importStep (c : Cfg) (st : ImpState) (vals : List ℚ) : ImpState :=
  if inRange vals c.lows c.his then
    let pos := (binPositions vals c.lows c.sizes).map Int.toNat
    let v := getPos st.hs.field c.bins pos
    { hs := setPos st.hs (v + 1) c.bins pos, count := st.count + 1, oor := st.oor }
  else
    { hs := st.hs, count := st.count + 1, oor := st.oor + 1 }

/-- The import loop over the list of scanned tuples. -/
def importRun (c : Cfg) (st : ImpState) (records : List (List ℚ)) : ImpState :=
  records.foldl (importStep c) st

/-- The state `main` sets up before calling `import`: zero-filled buffer
(`calloc`), `min_bin_seen = INT_MAX`, `max_bin_seen = -1`, zero counters. -/
def initState (dims : ℕ) : ImpState :=
  { hs := { field := fun _ => 0,
            minSeen := List.replicate dims 2147483647,
            maxSeen := List.replicate dims (-1) },
    count := 0, oor := 0 }

/-- Sum of all histogram cells (over the linear index space). -/
def sumCells (n : ℕ) (field : ℕ → ℕ) : ℕ := ∑ j ∈ Finset.range n, field j

/-! ### Lemmas about the binning engine -/

theorem dimBin_bounds (l h v : ℚ) (b : ℕ) (hb : 1 ≤ b) (hlh : l < h)
    (h1 : l ≤ v) (h2 : v < h) :
    0 ≤ dimBin v l ((h - l) / (b : ℚ)) ∧ dimBin v l ((h - l) / (b : ℚ)) < (b : ℤ) := by
  have hb0 : (0 : ℚ) < (b : ℚ) := by exact_mod_cast hb
  have hs : (0 : ℚ) < (h - l) / (b : ℚ) := div_pos (by linarith) hb0
  constructor
  · exact Int.floor_nonneg.mpr (div_nonneg (by linarith) hs.le)
  · rw [dimBin, Int.floor_lt, div_lt_iff₀ hs]
    have hcan : (b : ℚ) * ((h - l) / (b : ℚ)) = h - l := by
      field_simp
    push_cast
    rw [hcan]
    linarith

theorem binPositions_valid (lows his : List ℚ) (bins : List ℕ) :
    ∀ vals : List ℚ, cfgOkB lows his bins = true → vals.length = lows.length →
    inRange vals lows his = true →
    validPosB bins ((binPositions vals lows (sizesOf lows his bins)).map Int.toNat) = true := by
  induction lows generalizing his bins with
  | nil =>
      intro vals hok hlen hin
      cases his with
      | cons h hs => simp [cfgOkB] at hok
      | nil =>
          cases bins with
          | cons b bs => simp [cfgOkB] at hok
          | nil =>
              cases vals with
              | nil => simp [binPositions, validPosB]
              | cons v vs => simp at hlen
  | cons l ls ih =>
      intro vals hok hlen hin
      cases his with
      | nil => simp [cfgOkB] at hok
      | cons h hs =>
          cases bins with
          | nil => simp [cfgOkB] at hok
          | cons b bs =>
              cases vals with
              | nil => simp at hlen
              | cons v vs =>
                  simp only [cfgOkB, Bool.and_eq_true, decide_eq_true_eq] at hok
                  obtain ⟨⟨hlh, hb⟩, hok2⟩ := hok
                  simp only [inRange, dimAccept, Bool.and_eq_true, decide_eq_true_eq] at hin
                  obtain ⟨⟨hv1, hv2⟩, hin2⟩ := hin
                  have hlen2 : vs.length = ls.length := by simpa using hlen
                  have hbd := dimBin_bounds l h v b hb hlh hv1 hv2
                  simp only [sizesOf, binPositions, List.map_cons, validPosB,
                    Bool.and_eq_true, decide_eq_true_eq]
                  refine ⟨?_, ih hs bs vs hok2 hlen2 hin2⟩
                  omega

theorem sum_update_succ (n : ℕ) (f : ℕ → ℕ) (j : ℕ) (hj : j < n) :
    sumCells n (Function.update f j (f j + 1)) = sumCells n f + 1 := by
  have hmem : j ∈ Finset.range n := Finset.mem_range.mpr hj
  rw [sumCells, Finset.sum_update_of_mem hmem, sumCells]
  have hsum : ∑ x ∈ ({j} : Finset ℕ), f x = f j := Finset.sum_singleton f j
  have h2 : ∑ x ∈ Finset.range n \ {j}, f x + ∑ x ∈ {j}, f x =
      ∑ x ∈ Finset.range n, f x :=
    Finset.sum_sdiff (Finset.singleton_subset_iff.mpr hmem)
  omega

theorem importStep_invariant (c : Cfg) (hok : cfgOkB c.lows c.his c.bins = true)
    (st : ImpState) (vals : List ℚ) (hlen : vals.length = c.lows.length)
    (hinv : sumCells (totalCells c.bins) st.hs.field + st.oor = st.count) :
    sumCells (totalCells c.bins) (importStep c st vals).hs.field + (importStep c st vals).oor =
      (importStep c st vals).count := by
  by_cases hin : inRange vals c.lows c.his = true
  · have hv := binPositions_valid c.lows c.his c.bins vals hok hlen hin
    have hlt := horner_lt_total c.bins _ hv
    rw [← linIndex_eq_horner] at hlt
    simp only [importStep, hin, if_pos, setPos, getPos, Cfg.sizes]
    rw [sum_update_succ _ _ _ hlt]
    omega
  · simp only [importStep, hin, if_neg, Bool.false_eq_true, not_false_iff]
    omega

theorem importRun_invariant (c : Cfg) (hok : cfgOkB c.lows c.his c.bins = true)
    (records : List (List ℚ)) :
    ∀ st : ImpState, (∀ r ∈ records, r.length = c.lows.length) →
    sumCells (totalCells c.bins) st.hs.field + st.oor = st.count →
    sumCells (totalCells c.bins) (importRun c st records).hs.field +
        (importRun c st records).oor = (importRun c st records).count := by
  induction records with
  | nil => intro st _ hinv; simpa [importRun] using hinv
  | cons r rs ih =>
      intro st hlen hinv
      have h1 := importStep_invariant c hok st r (hlen r (by simp)) hinv
      have h2 := ih (importStep c st r) (fun q hq => hlen q (by simp [hq]))
      simpa [importRun] using h2 h1

/-! ### Raw output (output, histogram_nd.c lines 364-373 and 398-417) -/

/-- The raw8 sample: `out = (((double)value) / max) * 255` assigned to a
`uint8_t`, which truncates the fractional part toward zero (C11 6.3.1.4). -/
def sample8 (v m : ℕ) : ℕ := (⌊((v : ℚ) / (m : ℚ)) * 255⌋).toNat

/-- The raw16 sample before the byte swap: `out = (((double)value) / max) * 65535`
assigned to a `uint16_t` (truncation toward zero). -/
def sample16 (v m : ℕ) : ℕ := (⌊((v : ℚ) / (m : ℚ)) * 65535⌋).toNat

/-- The raw8 byte stream: one truncated sample per cell, cells visited by the
`adv_pos` odometer from `start` (dimension 0 fastest). -/
def raw8Output (bins : List ℕ) (field : ℕ → ℕ) (m : ℕ) (start : List ℕ) : List ℕ :=
  (posSeq bins (totalCells bins) start).map (fun pos => sample8 (getPos field bins pos) m)

/-- The raw16 byte stream: per cell the sample is emitted as two bytes in
big-endian order (`htons` then a 2-byte write). -/
def raw16Output (bins : List ℕ) (field : ℕ → ℕ) (m : ℕ) (start : List ℕ) : List ℕ :=
  ((posSeq bins (totalCells bins) start).map
    (fun pos =>
      let s := sample16 (getPos field bins pos) m
      [s / 256, s % 256])).join

/-- The first pass of raw output: `max = MAX(max, get_pos(...))` over a full
odometer traversal starting from the all-zero position, with `max = 0`
initially. -/
def firstPassMax (bins : List ℕ) (field : ℕ → ℕ) : ℕ :=
  (posSeq bins (totalCells bins) (List.replicate bins.length 0)).foldl
    (fun m pos => max m (getPos field bins pos)) 0

/-- The spec sample formula for raw8 as literally written in the spec:
`round(value / max * 255)` (spec section 4.5).  Compared with `sample8`
in claim C1. -/
def specRound8 (v m : ℕ) : ℤ := round (((v : ℚ) / (m : ℚ)) * 255)

/-- The spec sample formula for raw16: `round(value / max * 65535)`. -/
def specRound16 (v m : ℕ) : ℤ := round (((v : ℚ) / (m : ℚ)) * 65535)

/-! ### Occupied-range padding (output, histogram_nd.c lines 379-386) -/

/-- Padding of the lower occupied bound:
`if (min_bin_seen[dim] > 0) min_bin_seen[dim]--;`. -/
def fixupMin (mn : ℤ) : ℤ := if 0 < mn then mn - 1 else mn

/-- Padding of the upper occupied bound:
`if (max_bin_seen[dim] < bins[dim] - 1) max_bin_seen[dim]++;`. -/
def fixupMax (mx : ℤ) (b : ℕ) : ℤ := if mx < (b : ℤ) - 1 then mx + 1 else mx

/-- The padding loop over all dimensions (lower bounds). -/
def fixupMins (mins : List ℤ) : List ℤ := mins.map fixupMin

/-- The padding loop over all dimensions (upper bounds). -/
def fixupMaxs (maxs : List ℤ) (bins : List ℕ) : List ℤ := List.zipWith fixupMax maxs bins

/-! ### Evaluation lemmas for the samples -/

theorem sample8_eq (v m : ℕ) : sample8 v m = v * 255 / m := by
  rw [sample8]
  have h : ((v : ℚ) / (m : ℚ)) * 255 = ((v * 255 : ℕ) : ℤ) / ((m : ℕ) : ℚ) := by
    push_cast
    ring
  rw [h, Rat.floor_intCast_div_natCast, ← Int.ofNat_ediv]
  exact Int.toNat_natCast _

theorem sample16_eq (v m : ℕ) : sample16 v m = v * 65535 / m := by
  rw [sample16]
  have h : ((v : ℚ) / (m : ℚ)) * 65535 = ((v * 65535 : ℕ) : ℤ) / ((m : ℕ) : ℚ) := by
    push_cast
    ring
  rw [h, Rat.floor_intCast_div_natCast, ← Int.ofNat_ediv]
  exact Int.toNat_natCast _

theorem raw8Output_cells (bins : List ℕ) (field : ℕ → ℕ) (m : ℕ)
    (h : bins.all (fun b => decide (0 < b)) = true) :
    raw8Output bins field m (List.replicate bins.length 0) =
      (List.range (totalCells bins)).map (fun j => sample8 (field j) m) := by
  have hv := zeros_valid bins h
  have h0 := zeros_horner bins
  rw [raw8Output]
  have hmap := posSeq_map bins (fun j => sample8 (field j) m) (totalCells bins)
    (List.replicate bins.length 0) hv (by omega)
  rw [h0, Nat.sub_zero] at hmap
  rw [← List.range_eq_range'] at hmap
  rw [← hmap]
  apply List.map_congr_left
  intro q _
  rw [getPos, linIndex_eq_horner]

theorem raw16Output_cells (bins : List ℕ) (field : ℕ → ℕ) (m : ℕ)
    (h : bins.all (fun b => decide (0 < b)) = true) :
    raw16Output bins field m (List.replicate bins.length 0) =
      ((List.range (totalCells bins)).map
        (fun j => [sample16 (field j) m / 256, sample16 (field j) m % 256])).join := by
  have hv := zeros_valid bins h
  have h0 := zeros_horner bins
  rw [raw16Output]
  have hmap := posSeq_map bins
    (fun j => [sample16 (field j) m / 256, sample16 (field j) m % 256]) (totalCells bins)
    (List.replicate bins.length 0) hv (by omega)
  rw [h0, Nat.sub_zero] at hmap
  rw [← List.range_eq_range'] at hmap
  rw [← hmap]
  congr 1
  apply List.map_congr_left
  intro q _
  rw [getPos, linIndex_eq_horner]

theorem foldl_max_le (l : List ℕ) : ∀ a : ℕ, a ≤ l.foldl max a := by
  induction l with
  | nil => intro a; simp
  | cons x xs ih =>
      intro a
      calc a ≤ max a x := le_max_left a x
        _ ≤ xs.foldl max (max a x) := ih (max a x)

theorem mem_le_foldl_max (l : List ℕ) : ∀ (a x : ℕ), x ∈ l → x ≤ l.foldl max a := by
  induction l with
  | nil => intro a x hx; simp at hx
  | cons y ys ih =>
      intro a x hx
      rcases List.mem_cons.mp hx with h | h
      · subst h
        calc x ≤ max a x := le_max_right a x
          _ ≤ ys.foldl max (max a x) := foldl_max_le ys (max a x)
      · exact ih (max a y) x h

theorem firstPassMax_ge (bins : List ℕ) (field : ℕ → ℕ)
    (h : bins.all (fun b => decide (0 < b)) = true)
    (j : ℕ) (hj : j < totalCells bins) : field j ≤ firstPassMax bins field := by
  have hv := zeros_valid bins h
  have h0 := zeros_horner bins
  rw [firstPassMax]
  have hmap := posSeq_map bins field (totalCells bins) (List.replicate bins.length 0) hv
    (by omega)
  rw [h0, Nat.sub_zero, ← List.range_eq_range'] at hmap
  have hfold : (posSeq bins (totalCells bins) (List.replicate bins.length 0)).foldl
      (fun m pos => max m (getPos field bins pos)) 0 =
      ((posSeq bins (totalCells bins) (List.replicate bins.length 0)).map
        (fun pos => getPos field bins pos)).foldl max 0 := by
    rw [List.foldl_map]
  rw [hfold]
  have hget : (posSeq bins (totalCells bins) (List.replicate bins.length 0)).map
      (fun pos => getPos field bins pos) = (List.range (totalCells bins)).map field := by
    rw [← hmap]
    apply List.map_congr_left
    intro q _
    rw [getPos, linIndex_eq_horner]
  rw [hget]
  apply mem_le_foldl_max
  exact List.mem_map_of_mem field (List.mem_range.mpr hj)

/-! ### Text output (output, histogram_nd.c lines 419-459) -/

/-- One unit of text output: a data line (the printed bin midpoints and the
printed value) or the blank spacer line. -/
inductive TextItem where
  | line (mids : List ℚ) (value : ℚ)
  | blank
deriving DecidableEq

/-- Recogniser for the blank spacer item. -/
def itemIsBlank : TextItem → Bool
  | TextItem.blank => true
  | TextItem.line _ _ => false

/-- Everything the text-output loop reads: configuration, flags, the padded
occupied-range window, the histogram buffer and the tuple counter. -/
structure TextCfg where
  lows : List ℚ
  his : List ℚ
  bins : List ℕ
  sizes : List ℚ
  relativeFlag : Bool
  omitFlag : Bool
  minsW : List ℤ
  maxsW : List ℤ
  field : ℕ → ℕ
  count : ℕ

/-- The printed bin midpoint for one dimension:
`low[dim] + ((pos[dim] + 0.5) * (hi[dim] - low[dim])) / (double)bins[dim]`. -/
def textMidpoint (l h : ℚ) (b : ℕ) (p : ℕ) : ℚ :=
  l + (((p : ℚ) + 1 / 2) * (h - l)) / (b : ℚ)

/-- The midpoint loop of one output line (one midpoint per dimension). -/
def textMidpoints : List ℚ → List ℚ → List ℕ → List ℕ → List ℚ
  | l :: ls, h :: hs, b :: bs, p :: ps => textMidpoint l h b p :: textMidpoints ls hs bs ps
  | _, _, _, _ => []

/-- The printed value of one output line: the relative frequency
`get_pos(...) / (bin_sizes * count)` with `bin_sizes` the product of all
`size[dim]` when relative mode is on, else the plain count. -/
def textValue (tc : TextCfg) (pos : List ℕ) : ℚ :=
  if tc.relativeFlag then
    (getPos tc.field tc.bins pos : ℚ) / (tc.sizes.prod * (tc.count : ℚ))
  else (getPos tc.field tc.bins pos : ℚ)

/-- One output line of text mode. -/
def textLine (tc : TextCfg) (pos : List ℕ) : TextItem :=
  TextItem.line (textMidpoints tc.lows tc.his tc.bins pos) (textValue tc pos)

/-- Per-dimension data of the text-mode position-update loop:
`(bins[dim], pos[dim], min_bin_seen[dim], max_bin_seen[dim])`. -/
def dimZip : List ℕ → List ℕ → List ℤ → List ℤ → List (ℕ × ℕ × ℤ × ℤ)
  | b :: bs, p :: ps, mn :: mns, mx :: mxs => (b, p, mn, mx) :: dimZip bs ps mns mxs
  | _, _, _, _ => []

/-- The text-mode position update (`for (dim = dims - 1; dim >= 0; dim--)`),
run on the dimension list in reversed order (innermost dimension first):
increment, test overflow against the bin count (and against the trimmed
window when `-o` is on), reset on overflow (to 0, or to the window lower
bound under `-o`) and carry on; the flag is true when the carry walked past
dimension 0 (`dim < 0`, loop exit). -/
def textStep (trim : Bool) : List (ℕ × ℕ × ℤ × ℤ) → List ℕ × Bool
  | [] => ([], true)
  | (b, p, mn, mx) :: rest =>
      if p + 1 ≥ b ∨ (trim ∧ (p : ℤ) + 1 > mx) then
        let r := textStep trim rest
        ((if trim then mn.toNat else 0) :: r.1, r.2)
      else ((p + 1) :: rest.map (fun q => q.2.1), false)

/-- Whether the position update prints the spacer line: the blank is printed
exactly when the overflow test fires at `dim == dims - 1`, i.e. when the
innermost dimension overflows (first element of the reversed dimension
list). -/
def textStepBlank (trim : Bool) (zs : List (ℕ × ℕ × ℤ × ℤ)) : Bool :=
  match zs with
  | (b, p, _, mx) :: _ => decide (p + 1 ≥ b) || (trim && decide ((p : ℤ) + 1 > mx))
  | [] => false

/-- The text-mode output loop (`while (1) { print line; update pos; }`),
with explicit fuel; emits one line per position, plus the spacer after an
innermost-dimension overflow, and stops when the update loop ran past
dimension 0. -/
def textLoop (tc : TextCfg) : ℕ → List ℕ → List TextItem
  | 0, _ => []
  | fuel + 1, pos =>
      let zsR := (dimZip tc.bins pos tc.minsW tc.maxsW).reverse
      let r := textStep tc.omitFlag zsR
      textLine tc pos ::
        ((if textStepBlank tc.omitFlag zsR then [TextItem.blank] else []) ++
          (if r.2 then [] else textLoop tc fuel r.1.reverse))

/-- The spec bin midpoint formula as written: `low_d + (pos_d + 0.5) * bin_width_d`
with `bin_width_d = (high_d - low_d) / bin_count_d` (spec section 4.5).
Compared with `textMidpoint` in claim C5. -/
def specMidpoint (l h : ℚ) (b : ℕ) (p : ℕ) : ℚ :=
  l + (((p : ℚ) + 1 / 2) * ((h - l) / (b : ℚ)))

/-- The per-line midpoint list built from the spec formula. -/
def specMidpoints : List ℚ → List ℚ → List ℕ → List ℕ → List ℚ
  | l :: ls, h :: hs, b :: bs, p :: ps => specMidpoint l h b p :: specMidpoints ls hs bs ps
  | _, _, _, _ => []

/-- The spec relative-frequency formula as written:
`count / (product_of_all_bin_widths * total_tuples_read)` (spec section 4.5).
Compared with `textValue` in claim C5. -/
def specRelValue (field : ℕ → ℕ) (lows his : List ℚ) (bins : List ℕ) (count : ℕ)
    (pos : List ℕ) : ℚ :=
  (getPos field bins pos : ℚ) / ((sizesOf lows his bins).prod * (count : ℚ))

/-! ### Option validation and the end-to-end program (parseOptions / main) -/

/-- The option state produced by the getopt loop of `parseOptions`: the flag
variables and the per-dimension argument arrays (the C globals `low`, `hi`,
`bins` are zero-initialised arrays of fixed size, modelled by `getD _ 0`
lookups into these lists). -/
structure Options where
  dims : ℤ
  relativeFlag : Bool
  raw8Flag : Bool
  raw16Flag : Bool
  omitFlag : Bool
  lowArr : List ℚ
  hiArr : List ℚ
  binArr : List ℤ

/-- The per-dimension sanity loop of `parseOptions`:
`if ((low[dim] >= hi[dim]) || (bins[dim] < 1)) return 1;` for
`dim = 0 .. dims-1`. -/
def badRangeLoop (o : Options) : Bool :=
  (List.range o.dims.toNat).any
    (fun d => decide (o.lowArr.getD d 0 ≥ o.hiArr.getD d 0) || decide (o.binArr.getD d 0 < 1))

/-- The sanity checks of `parseOptions` (histogram_nd.c lines 158-185), true
when `parseOptions` returns 1 (configuration rejected): dimension count out
of `[1, MAX_DIM)`, a raw mode without `-d 2` or without `-r`, both raw modes
at once, or a bad per-dimension range/bin-count argument.  Note: there is no
check involving `omit_outer_zero`. -/
def parseOptionsChecks (o : Options) : Bool :=
  decide (o.dims < 1) || decide (o.dims ≥ 100) ||
    ((o.raw8Flag || o.raw16Flag) && (decide (o.dims ≠ 2) || !o.relativeFlag)) ||
    (o.raw8Flag && o.raw16Flag) ||
    badRangeLoop o

/-- The first `dims` entries of the `low` array. -/
def Options.lows (o : Options) : List ℚ :=
  (List.range o.dims.toNat).map (fun d => o.lowArr.getD d 0)

/-- The first `dims` entries of the `hi` array. -/
def Options.highs (o : Options) : List ℚ :=
  (List.range o.dims.toNat).map (fun d => o.hiArr.getD d 0)

/-- The first `dims` entries of the `bins` array (validated non-negative). -/
def Options.binsN (o : Options) : List ℕ :=
  (List.range o.dims.toNat).map (fun d => (o.binArr.getD d 0).toNat)

/-- The observable outcome of one program run: configuration rejection
(`exit(1)` before any input is read), the fatal empty-result error of
`import` (`exit(1)` before any output), or the emitted text items / raw
bytes. -/
inductive ProgResult where
  | confErr
  | emptyErr
  | textOut (items : List TextItem)
  | rawOut (bytes : List ℕ)
deriving DecidableEq

/-- The process exit status of a run (`exit(1)` on the two error paths,
0 otherwise). -/
def ProgResult.exitCode : ProgResult → ℕ
  | ProgResult.confErr => 1
  | ProgResult.emptyErr => 1
  | _ => 0

/-- Whether a run wrote anything to the primary output. -/
def ProgResult.producedOutput : ProgResult → Bool
  | ProgResult.textOut items => !items.isEmpty
  | ProgResult.rawOut bytes => !bytes.isEmpty
  | _ => false

/-- The whole program (`main`): option validation, allocation and
initialisation, import, and output (first-pass maximum plus raw emission, or
the padding fixup plus the text loop).  `records` is the list of numeric
tuples delivered by the line scanner (spec section 6). -/
def mainModel (o : Options) (records : List (List ℚ)) : ProgResult :=
  if parseOptionsChecks o then ProgResult.confErr
  else
    let c : Cfg := { lows := o.lows, his := o.highs, bins := o.binsN }
    let st := importRun c (initState o.dims.toNat) records
    if st.count - st.oor = 0 then ProgResult.emptyErr
    else
      let mins := fixupMins st.hs.minSeen
      let maxs := fixupMaxs st.hs.maxSeen c.bins
      if o.raw8Flag ∨ o.raw16Flag then
        let start := if o.omitFlag then mins.map Int.toNat
          else List.replicate c.bins.length 0
        let m := firstPassMax c.bins st.hs.field
        if o.raw8Flag then ProgResult.rawOut (raw8Output c.bins st.hs.field m start)
        else ProgResult.rawOut (raw16Output c.bins st.hs.field m start)
      else
        let start := if o.omitFlag then mins.map Int.toNat
          else List.replicate c.bins.length 0
        let tc : TextCfg :=
          { lows := c.lows, his := c.his, bins := c.bins, sizes := c.sizes,
            relativeFlag := o.relativeFlag, omitFlag := o.omitFlag,
            minsW := mins, maxsW := maxs, field := st.hs.field, count := st.count }
        ProgResult.textOut (textLoop tc (totalCells c.bins) start)

/-! ### Claim theorems -/

theorem horner_eq_spec : ∀ (pos bins : List ℕ), pos.length = bins.length →
    linHorner bins pos = specLinIndex bins pos := by
  intro pos
  induction pos with
  | nil =>
      intro bins hlen
      cases bins with
      | nil => simp [linHorner, specLinIndex]
      | cons b bs => simp at hlen
  | cons p ps ih =>
      intro bins hlen
      cases bins with
      | nil => simp at hlen
      | cons b bs =>
          have hlen2 : ps.length = bs.length := by simpa using hlen
          simp only [linHorner, ih bs hlen2, specLinIndex, List.length_cons]
          rw [Finset.sum_range_succ']
          have hzero : (p :: ps).getD 0 0 * strideSpec (b :: bs) 0 = p := by
            simp [strideSpec]
          have hsucc : ∀ d : ℕ, (p :: ps).getD (d + 1) 0 * strideSpec (b :: bs) (d + 1) =
              b * (ps.getD d 0 * strideSpec bs d) := by
            intro d
            simp only [List.getD_cons_succ, strideSpec, List.take_succ_cons, List.prod_cons]
            ring
          rw [hzero, Finset.sum_congr rfl (fun d _ => hsucc d), ← Finset.mul_sum]
          ring

/-- C8: for every index tuple, the read and the write accessor address the
linear cell index given by the stride formula of the spec
(`stride_0 = 1`, `stride_d = stride_(d-1) * bin_count_(d-1)`), and reading a
tuple immediately after writing `v` there returns `v`. -/
theorem C8_store_addressing (bins pos : List ℕ) (hlen : pos.length = bins.length) :
    linIndex bins pos = specLinIndex bins pos ∧
    (∀ (st : HState) (v : ℕ), getPos (setPos st v bins pos).field bins pos = v) := by
  constructor
  · rw [linIndex_eq_horner]
    exact horner_eq_spec pos bins hlen
  · intro st v
    rw [getPos, setPos]
    exact Function.update_same _ _ _

theorem C8_store_addressing_witness :
    linIndex [3, 4] [2, 1] = specLinIndex [3, 4] [2, 1] ∧
    getPos (setPos ⟨fun _ => 0, [], []⟩ 5 [3, 4] [2, 1]).field [3, 4] [2, 1] = 5 :=
  ⟨(C8_store_addressing [3, 4] [2, 1] (by decide)).1,
    (C8_store_addressing [3, 4] [2, 1] (by decide)).2 ⟨fun _ => 0, [], []⟩ 5⟩

/-- C7: the odometer advance increments dimension 0 first, resets an
overflowing dimension and carries into the next one, reports exhaustion
exactly when every dimension was at its last bin (the carry walked past the
last dimension), and over bounds `[2, 3]` starting from `(0, 0)` it visits
exactly `(0,0), (1,0), (0,1), (1,1), (0,2), (1,2)` and then overflows. -/
theorem C7_odometer_order :
    (∀ (b : ℕ) (bs ps : List ℕ) (p : ℕ), p + 1 < b →
      advPos (b :: bs) (p :: ps) = ((p + 1) :: ps, false)) ∧
    (∀ (b : ℕ) (bs ps : List ℕ) (p : ℕ), p + 1 ≥ b →
      advPos (b :: bs) (p :: ps) = (0 :: (advPos bs ps).1, (advPos bs ps).2)) ∧
    (∀ bins pos : List ℕ, validPosB bins pos = true →
      ((advPos bins pos).2 = true ↔ maxedB bins pos = true)) ∧
    posSeq [2, 3] 6 [0, 0] = [[0, 0], [1, 0], [0, 1], [1, 1], [0, 2], [1, 2]] ∧
    posSeq [2, 3] 100 [0, 0] = [[0, 0], [1, 0], [0, 1], [1, 1], [0, 2], [1, 2]] ∧
    (advPos [2, 3] [1, 2]).2 = true := by
  refine ⟨?_, ?_, ?_, by decide, by decide, by decide⟩
  · intro b bs ps p h
    rw [advPos.eq_def]
    simp only []
    rw [if_neg (by omega)]
  · intro b bs ps p h
    rw [advPos.eq_def]
    simp only []
    rw [if_pos (by omega)]
  · intro bins pos hv
    rw [advPos_flag bins pos hv]

theorem C7_odometer_order_witness :
    advPos [3] [1] = ([2], false) ∧
    advPos [3] [2] = (0 :: (advPos [] []).1, (advPos [] []).2) ∧
    ((advPos [2, 3] [1, 2]).2 = true ↔ maxedB [2, 3] [1, 2] = true) :=
  ⟨C7_odometer_order.1 3 [] [] 1 (by decide),
    C7_odometer_order.2.1 3 [] [] 2 (by decide),
    C7_odometer_order.2.2.1 [2, 3] [1, 2] (by decide)⟩

/-- C9: the padding step decrements a lower occupied bound exactly when it is
positive and increments an upper occupied bound exactly when it is below
`bins - 1`; with 10 bins and only bin 7 ever occupied, the trimmed window
after padding is `[6, 8]`. -/
theorem C9_padding_step :
    (∀ mn : ℤ, (fixupMin mn = mn - 1 ↔ 0 < mn) ∧ (fixupMin mn = mn ↔ ¬0 < mn)) ∧
    (∀ (mx : ℤ) (b : ℕ),
      (fixupMax mx b = mx + 1 ↔ mx < (b : ℤ) - 1) ∧
      (fixupMax mx b = mx ↔ ¬mx < (b : ℤ) - 1)) ∧
    ((importRun ⟨[0], [10], [10]⟩ (initState 1) [[15 / 2]]).hs.minSeen = [7] ∧
      (importRun ⟨[0], [10], [10]⟩ (initState 1) [[15 / 2]]).hs.maxSeen = [7] ∧
      fixupMins (importRun ⟨[0], [10], [10]⟩ (initState 1) [[15 / 2]]).hs.minSeen = [6] ∧
      fixupMaxs (importRun ⟨[0], [10], [10]⟩ (initState 1) [[15 / 2]]).hs.maxSeen [10] = [8]) := by
  refine ⟨?_, ?_, ?_⟩
  · intro mn
    constructor
    · rw [fixupMin]
      split <;> omega
    · rw [fixupMin]
      split <;> omega
  · intro mx b
    constructor
    · rw [fixupMax]
      split <;> omega
    · rw [fixupMax]
      split <;> omega
  · have hfloor : (⌊((15 / 2 : ℚ) - 0) / ((10 - 0) / (10 : ℚ))⌋ : ℤ) = 7 := by
      norm_num [Int.floor_eq_iff]
    have hrun : importRun ⟨[0], [10], [10]⟩ (initState 1) [[15 / 2]] =
        { hs := { field := Function.update (fun _ => 0) 7 1, minSeen := [7], maxSeen := [7] },
          count := 1, oor := 0 } := by
      rw [importRun, List.foldl_cons, List.foldl_nil, importStep]
      rw [if_pos (by norm_num [inRange, dimAccept])]
      simp only [Cfg.sizes]
      simp only [binPositions, sizesOf, dimBin, hfloor, initState, List.map_cons, List.map_nil]
      simp only [getPos, setPos, List.replicate, List.zipWith]
      norm_num [linIndex, linIndexGo]
      rfl
    rw [hrun]
    constructor
    · rfl
    constructor
    · rfl
    constructor
    · norm_num [fixupMins, fixupMin]
    · norm_num [fixupMaxs, fixupMax, List.zipWith]

theorem inRange_iff_forall : ∀ (vals lows his : List ℚ), vals.length = lows.length →
    vals.length = his.length →
    (inRange vals lows his = true ↔
      ∀ d, d < vals.length → lows.getD d 0 ≤ vals.getD d 0 ∧ vals.getD d 0 < his.getD d 0) := by
  intro vals
  induction vals with
  | nil =>
      intro lows his h1 h2
      simp [inRange]
  | cons v vs ih =>
      intro lows his h1 h2
      cases lows with
      | nil => simp at h1
      | cons l ls =>
          cases his with
          | nil => simp at h2
          | cons h hs =>
              have h1s : vs.length = ls.length := by simpa using h1
              have h2s : vs.length = hs.length := by simpa using h2
              simp only [inRange, dimAccept, Bool.and_eq_true, decide_eq_true_eq]
              rw [ih ls hs h1s h2s]
              constructor
              · rintro ⟨⟨ha, hb⟩, hrest⟩ d hd
                cases d with
                | zero => simpa using And.intro ha hb
                | succ d2 =>
                    have hd2 : d2 < vs.length := by simpa using hd
                    simpa using hrest d2 hd2
              · intro hall
                refine ⟨⟨?_, ?_⟩, ?_⟩
                · have h0 := hall 0 (by simp)
                  simpa using h0.1
                · have h0 := hall 0 (by simp)
                  simpa using h0.2
                · intro d hd
                  have hs1 := hall (d + 1) (by simpa using hd)
                  simpa using hs1

/-- C3: membership is the half-open test `low <= v < high` in every
dimension; a coordinate exactly at the upper bound is always rejected; a
coordinate exactly at the lower bound is accepted into bin 0; and an
accepted bin index `floor((v - low) / bin_width)` always lies in
`[0, bin_count)`. -/
theorem C3_halfopen_binning :
    (∀ (vals lows his : List ℚ), vals.length = lows.length → vals.length = his.length →
      (inRange vals lows his = true ↔
        ∀ d, d < vals.length → lows.getD d 0 ≤ vals.getD d 0 ∧ vals.getD d 0 < his.getD d 0)) ∧
    (∀ l h : ℚ, dimAccept h l h = false) ∧
    (∀ l h : ℚ, l < h → ∀ s : ℚ, dimAccept l l h = true ∧ dimBin l l s = 0) ∧
    (∀ (l h v : ℚ) (b : ℕ), 1 ≤ b → l < h → l ≤ v → v < h →
      0 ≤ dimBin v l ((h - l) / (b : ℚ)) ∧ dimBin v l ((h - l) / (b : ℚ)) < (b : ℤ)) := by
  refine ⟨inRange_iff_forall, ?_, ?_, ?_⟩
  · intro l h
    simp [dimAccept]
  · intro l h hlh s
    constructor
    · simp [dimAccept, hlh]
    · simp [dimBin]
  · intro l h v b hb hlh h1 h2
    exact dimBin_bounds l h v b hb hlh h1 h2

theorem C3_halfopen_binning_witness :
    (inRange [1] [0] [2] = true ↔
      ∀ d, d < [(1 : ℚ)].length → [(0 : ℚ)].getD d 0 ≤ [(1 : ℚ)].getD d 0 ∧
        [(1 : ℚ)].getD d 0 < [(2 : ℚ)].getD d 0) ∧
    dimAccept 2 0 2 = false ∧
    (dimAccept 0 0 2 = true ∧ dimBin 0 0 1 = 0) ∧
    (0 ≤ dimBin 1 0 ((2 - 0) / ((2 : ℕ) : ℚ)) ∧
      dimBin 1 0 ((2 - 0) / ((2 : ℕ) : ℚ)) < ((2 : ℕ) : ℤ)) :=
  ⟨C3_halfopen_binning.1 [1] [0] [2] (by decide) (by decide),
    C3_halfopen_binning.2.1 0 2,
    C3_halfopen_binning.2.2.1 0 2 (by decide) 1,
    C3_halfopen_binning.2.2.2 0 2 1 2 (by decide) (by decide) (by decide) (by decide)⟩

/-- C4: after import, the sum of all histogram cells equals the number of
accepted tuples; an accepted tuple increments exactly its own cell by exactly
1 (the buffer becomes a pointwise update), and a rejected tuple leaves the
buffer unchanged. -/
theorem C4_conservation (c : Cfg) (records : List (List ℚ))
    (hok : cfgOkB c.lows c.his c.bins = true)
    (hlen : ∀ r ∈ records, r.length = c.lows.length) :
    (sumCells (totalCells c.bins) (importRun c (initState c.lows.length) records).hs.field =
      (importRun c (initState c.lows.length) records).count -
        (importRun c (initState c.lows.length) records).oor) ∧
    (∀ (st : ImpState) (vals : List ℚ), inRange vals c.lows c.his = true →
      (importStep c st vals).hs.field =
        Function.update st.hs.field
          (linIndex c.bins ((binPositions vals c.lows c.sizes).map Int.toNat))
          (st.hs.field
            (linIndex c.bins ((binPositions vals c.lows c.sizes).map Int.toNat)) + 1)) ∧
    (∀ (st : ImpState) (vals : List ℚ), inRange vals c.lows c.his = false →
      (importStep c st vals).hs.field = st.hs.field) := by
  refine ⟨?_, ?_, ?_⟩
  · have hinit : sumCells (totalCells c.bins) (initState c.lows.length).hs.field +
        (initState c.lows.length).oor = (initState c.lows.length).count := by
      simp [initState, sumCells]
    have h := importRun_invariant c hok records (initState c.lows.length) hlen hinit
    omega
  · intro st vals hin
    simp only [importStep, hin, if_pos, setPos, getPos]
  · intro st vals hin
    simp only [importStep, hin, if_neg, Bool.false_eq_true, not_false_iff]

theorem C4_conservation_witness :
    (sumCells (totalCells [2]) (importRun ⟨[0], [2], [2]⟩ (initState 1) []).hs.field =
      (importRun ⟨[0], [2], [2]⟩ (initState 1) []).count -
        (importRun ⟨[0], [2], [2]⟩ (initState 1) []).oor) ∧
    (∀ (st : ImpState) (vals : List ℚ), inRange vals [0] [2] = true →
      (importStep ⟨[0], [2], [2]⟩ st vals).hs.field =
        Function.update st.hs.field
          (linIndex [2] ((binPositions vals [0] (Cfg.sizes ⟨[0], [2], [2]⟩)).map Int.toNat))
          (st.hs.field
            (linIndex [2]
              ((binPositions vals [0] (Cfg.sizes ⟨[0], [2], [2]⟩)).map Int.toNat)) + 1)) ∧
    (∀ (st : ImpState) (vals : List ℚ), inRange vals [0] [2] = false →
      (importStep ⟨[0], [2], [2]⟩ st vals).hs.field = st.hs.field) :=
  C4_conservation ⟨[0], [2], [2]⟩ [] (by decide) (by simp)

theorem cfgOk_bins_pos : ∀ (lows his : List ℚ) (bins : List ℕ),
    cfgOkB lows his bins = true → bins.all (fun b => decide (0 < b)) = true := by
  intro lows
  induction lows with
  | nil =>
      intro his bins h
      cases his with
      | cons x xs => simp [cfgOkB] at h
      | nil =>
          cases bins with
          | nil => simp
          | cons b bs => simp [cfgOkB] at h
  | cons l ls ih =>
      intro his bins h
      cases his with
      | nil => simp [cfgOkB] at h
      | cons hh hs =>
          cases bins with
          | nil => simp [cfgOkB] at h
          | cons b bs =>
              simp only [cfgOkB, Bool.and_eq_true, decide_eq_true_eq] at h
              simp only [List.all_cons, Bool.and_eq_true, decide_eq_true_eq]
              exact ⟨by omega, ih hs bs h.2⟩

theorem sum_pos_exists (n : ℕ) (f : ℕ → ℕ) (h : 1 ≤ sumCells n f) :
    ∃ j, j < n ∧ 1 ≤ f j := by
  by_contra hno
  push_neg at hno
  have hz : sumCells n f = 0 := by
    rw [sumCells]
    apply Finset.sum_eq_zero
    intro j hj
    have := hno j (Finset.mem_range.mp hj)
    omega
  omega

/-- C10: if import leaves at least one accepted tuple (so the fatal
empty-result exit is not taken and the raw output phase runs), the global
maximum cell value computed by the first raw pass is at least 1, so the
per-cell division by it is never a division by zero. -/
theorem C10_raw_max_positive (c : Cfg) (records : List (List ℚ))
    (hok : cfgOkB c.lows c.his c.bins = true)
    (hlen : ∀ r ∈ records, r.length = c.lows.length)
    (hacc : 1 ≤ (importRun c (initState c.lows.length) records).count -
      (importRun c (initState c.lows.length) records).oor) :
    1 ≤ firstPassMax c.bins (importRun c (initState c.lows.length) records).hs.field := by
  have hinit : sumCells (totalCells c.bins) (initState c.lows.length).hs.field +
      (initState c.lows.length).oor = (initState c.lows.length).count := by
    simp [initState, sumCells]
  have hinv := importRun_invariant c hok records (initState c.lows.length) hlen hinit
  have hsum : 1 ≤ sumCells (totalCells c.bins)
      (importRun c (initState c.lows.length) records).hs.field := by omega
  obtain ⟨j, hj, hfj⟩ := sum_pos_exists _ _ hsum
  have := firstPassMax_ge c.bins (importRun c (initState c.lows.length) records).hs.field
    (cfgOk_bins_pos c.lows c.his c.bins hok) j hj
  omega

theorem C10_raw_max_positive_witness :
    1 ≤ firstPassMax [1] (importRun ⟨[0], [2], [1]⟩ (initState 1) [[0]]).hs.field := by
  apply C10_raw_max_positive ⟨[0], [2], [1]⟩ [[0]] (by decide) (by decide)
  norm_num [importRun, importStep, inRange, dimAccept, Cfg.sizes, sizesOf, binPositions,
    dimBin, initState]

/-- C1 (amended): in raw output mode the full index space is traversed
dimension-0-fastest (the j-th emitted sample belongs to linear cell j), and
each emitted sample is `value / max * 255` (raw8) resp. `value / max * 65535`
(raw16) with the fractional part TRUNCATED toward zero (the C conversion of
the double to `uint8_t` / `uint16_t`), the raw16 sample being split into two
bytes in big-endian order.  The claim says `round`; the code truncates —
see the counterexample. -/
theorem C1_raw_scaling (bins : List ℕ) (field : ℕ → ℕ) (m : ℕ)
    (h : bins.all (fun b => decide (0 < b)) = true) :
    raw8Output bins field m (List.replicate bins.length 0) =
      (List.range (totalCells bins)).map (fun j => sample8 (field j) m) ∧
    raw16Output bins field m (List.replicate bins.length 0) =
      ((List.range (totalCells bins)).map
        (fun j => [sample16 (field j) m / 256, sample16 (field j) m % 256])).join :=
  ⟨raw8Output_cells bins field m h, raw16Output_cells bins field m h⟩

theorem C1_raw_scaling_witness :
    raw8Output [2, 1] (fun j => if j = 0 then 1 else 2) 2 (List.replicate 2 0) =
      (List.range (totalCells [2, 1])).map
        (fun j => sample8 ((fun j => if j = 0 then 1 else 2) j) 2) ∧
    raw16Output [2, 1] (fun j => if j = 0 then 1 else 2) 2 (List.replicate 2 0) =
      ((List.range (totalCells [2, 1])).map
        (fun j => [sample16 ((fun j => if j = 0 then 1 else 2) j) 2 / 256,
          sample16 ((fun j => if j = 0 then 1 else 2) j) 2 % 256])).join := by
  have h := C1_raw_scaling [2, 1] (fun j => if j = 0 then 1 else 2) 2 (by decide)
  simpa [List.length_cons] using h

/-- C1 counterexample: with two cells holding counts 1 and 2, the first-pass
maximum is 2 and the first emitted raw8 byte is 127 = trunc(1/2*255),
whereas the spec formula `round(value/max*255)` gives round(127.5) = 128;
likewise raw16 emits sample 32767 where the spec rounding gives 32768. -/
theorem C1_raw_scaling_counterexample :
    firstPassMax [2, 1] (fun j => if j = 0 then 1 else 2) = 2 ∧
    raw8Output [2, 1] (fun j => if j = 0 then 1 else 2) 2 (List.replicate 2 0) =
      [127, 255] ∧
    specRound8 1 2 = 128 ∧ (127 : ℤ) ≠ 128 ∧
    sample16 1 2 = 32767 ∧ specRound16 1 2 = 32768 ∧ (32767 : ℤ) ≠ 32768 := by
  refine ⟨by decide, ?_, ?_, by decide, ?_, ?_, by decide⟩
  · simp only [raw8Output, sample8_eq]
    decide
  · rw [specRound8]
    norm_num [round_eq, Int.floor_eq_iff]
  · rw [sample16_eq]
  · rw [specRound16]
    norm_num [round_eq, Int.floor_eq_iff]

/-- C5: in text mode the printed midpoint of each dimension equals
`low + (pos + 0.5) * bin_width` with `bin_width = (hi - low) / bins`, and in
relative mode the printed value of each emitted tuple equals
`count_of_cell / (product_of_all_bin_widths * total_tuples_read)`; each line
the loop emits is `textLine` applied to the current tuple. -/
theorem C5_text_relative_values :
    (∀ (lows his : List ℚ) (bins pos : List ℕ),
      textMidpoints lows his bins pos = specMidpoints lows his bins pos) ∧
    (∀ (lows his : List ℚ) (bins : List ℕ) (trim : Bool) (mins maxs : List ℤ)
      (field : ℕ → ℕ) (count : ℕ) (pos : List ℕ),
      textValue
          { lows := lows, his := his, bins := bins, sizes := sizesOf lows his bins,
            relativeFlag := true, omitFlag := trim, minsW := mins, maxsW := maxs,
            field := field, count := count } pos =
        specRelValue field lows his bins count pos) ∧
    (∀ (tc : TextCfg) (fuel : ℕ) (pos : List ℕ),
      (textLoop tc (fuel + 1) pos).head? = some (textLine tc pos)) := by
  refine ⟨?_, ?_, ?_⟩
  · intro lows
    induction lows with
    | nil =>
        intro his bins pos
        cases his <;> cases bins <;> cases pos <;> simp [textMidpoints, specMidpoints]
    | cons l ls ih =>
        intro his bins pos
        cases his with
        | nil => simp [textMidpoints, specMidpoints]
        | cons h hs =>
            cases bins with
            | nil => simp [textMidpoints, specMidpoints]
            | cons b bs =>
                cases pos with
                | nil => simp [textMidpoints, specMidpoints]
                | cons p ps =>
                    simp only [textMidpoints, specMidpoints, ih]
                    congr 1
                    rw [textMidpoint, specMidpoint, mul_div_assoc]
  · intro lows his bins trim mins maxs field count pos
    simp [textValue, specRelValue]
  · intro tc fuel pos
    simp [textLoop]

theorem dimZip_append : ∀ (bins pos : List ℕ) (mins maxs : List ℤ)
    (b p : ℕ) (mn mx : ℤ), bins.length = pos.length → bins.length = mins.length →
    bins.length = maxs.length →
    dimZip (bins ++ [b]) (pos ++ [p]) (mins ++ [mn]) (maxs ++ [mx]) =
      dimZip bins pos mins maxs ++ [(b, p, mn, mx)] := by
  intro bins
  induction bins with
  | nil =>
      intro pos mins maxs b p mn mx h1 h2 h3
      cases pos with
      | cons x xs => simp at h1
      | nil =>
          cases mins with
          | cons x xs => simp at h2
          | nil =>
              cases maxs with
              | cons x xs => simp at h3
              | nil => simp [dimZip]
  | cons bb bbs ih =>
      intro pos mins maxs b p mn mx h1 h2 h3
      cases pos with
      | nil => simp at h1
      | cons q qs =>
          cases mins with
          | nil => simp at h2
          | cons m1 m1s =>
              cases maxs with
              | nil => simp at h3
              | cons m2 m2s =>
                  simp only [List.cons_append, dimZip, List.length_cons] at h1 h2 h3 ⊢
                  congr 1
                  exact ih qs m1s m2s b p mn mx (by omega) (by omega) (by omega)

/-- C6 (amended): in text mode the blank spacer line is emitted exactly when
the INNERMOST dimension (dimension D-1, the fastest-running index of text
order) wraps — not when the dimension 0 index wraps.  For D <= 2 this
coincides with completing a dimension-0 block; the 2-D trace shows the
expected block structure. -/
theorem C6_blank_on_innermost_wrap :
    (∀ (bins pos : List ℕ) (mins maxs : List ℤ) (b p : ℕ) (mn mx : ℤ),
      bins.length = pos.length → bins.length = mins.length → bins.length = maxs.length →
      textStepBlank false
          ((dimZip (bins ++ [b]) (pos ++ [p]) (mins ++ [mn]) (maxs ++ [mx])).reverse) =
        decide (p + 1 ≥ b)) ∧
    (textLoop
        { lows := [0, 0], his := [2, 2], bins := [2, 2], sizes := [1, 1],
          relativeFlag := false, omitFlag := false, minsW := [0, 0], maxsW := [1, 1],
          field := fun _ => 0, count := 1 } 4 [0, 0]).map itemIsBlank =
      [false, false, true, false, false, true] := by
  constructor
  · intro bins pos mins maxs b p mn mx h1 h2 h3
    rw [dimZip_append bins pos mins maxs b p mn mx h1 h2 h3]
    rw [List.reverse_append]
    simp [textStepBlank]
  · decide

theorem C6_blank_on_innermost_wrap_witness :
    textStepBlank false
        ((dimZip ([2] ++ [2]) ([0] ++ [1]) ([0] ++ [0]) ([0] ++ [1])).reverse) =
      decide (1 + 1 ≥ 2) :=
  C6_blank_on_innermost_wrap.1 [2] [0] [0] [0] 2 1 0 1 (by decide) (by decide) (by decide)

/-- C6 counterexample: for D = 3 with bins (2,2,2) the text loop emits 4
blank lines (one after each run of the innermost dimension), with a blank
already after the second line — inside the first dimension-0 block — whereas
a blank emitted only when the dimension 0 index wraps would occur once, and
a blank after each completed dimension-0 block would occur twice. -/
theorem C6_blank_counterexample :
    ((textLoop
        { lows := [0, 0, 0], his := [2, 2, 2], bins := [2, 2, 2], sizes := [1, 1, 1],
          relativeFlag := false, omitFlag := false, minsW := [0, 0, 0], maxsW := [1, 1, 1],
          field := fun _ => 0, count := 1 } 8 [0, 0, 0]).map itemIsBlank =
      [false, false, true, false, false, true, false, false, true, false, false, true]) ∧
    ((textLoop
        { lows := [0, 0, 0], his := [2, 2, 2], bins := [2, 2, 2], sizes := [1, 1, 1],
          relativeFlag := false, omitFlag := false, minsW := [0, 0, 0], maxsW := [1, 1, 1],
          field := fun _ => 0, count := 1 } 8 [0, 0, 0]).countP itemIsBlank = 4) ∧
    (4 : ℕ) ≠ 1 ∧ (4 : ℕ) ≠ 2 := by
  refine ⟨by decide, by decide, by decide, by decide⟩

/-- C2 (amended): a bad dimension count, a non-increasing bound pair, a
non-positive bin count, both raw modes at once, or a raw mode without
relative mode or without exactly 2 dimensions, are all rejected by
`parseOptions` before any input is read: the run ends in the configuration
error state regardless of the input, with exit status 1 and no output.  The
boundary-trim flag together with a raw mode, however, is NOT rejected (the
code has no such check) — see the counterexample. -/
theorem C2_config_validation (o : Options) (records records2 : List (List ℚ)) :
    ((o.dims < 1 ∨ 100 ≤ o.dims) → mainModel o records = ProgResult.confErr) ∧
    ((∃ d, d < o.dims.toNat ∧
        (o.hiArr.getD d 0 ≤ o.lowArr.getD d 0 ∨ o.binArr.getD d 0 < 1)) →
      mainModel o records = ProgResult.confErr) ∧
    (o.raw8Flag = true → o.raw16Flag = true → mainModel o records = ProgResult.confErr) ∧
    ((o.raw8Flag = true ∨ o.raw16Flag = true) → (o.dims ≠ 2 ∨ o.relativeFlag = false) →
      mainModel o records = ProgResult.confErr) ∧
    (mainModel o records = ProgResult.confErr → mainModel o records2 = ProgResult.confErr) ∧
    ProgResult.confErr.exitCode = 1 ∧ ProgResult.confErr.producedOutput = false := by
  have hmain : parseOptionsChecks o = true → mainModel o records = ProgResult.confErr := by
    intro hc
    simp [mainModel, hc]
  refine ⟨?_, ?_, ?_, ?_, ?_, rfl, rfl⟩
  · intro hd
    apply hmain
    simp only [parseOptionsChecks, Bool.or_eq_true, decide_eq_true_eq]
    rcases hd with hd | hd
    · exact Or.inl (Or.inl (Or.inl (Or.inl hd)))
    · exact Or.inl (Or.inl (Or.inl (Or.inr hd)))
  · intro hd
    apply hmain
    obtain ⟨d, hdlt, hbad⟩ := hd
    simp only [parseOptionsChecks, Bool.or_eq_true]
    refine Or.inr ?_
    simp only [badRangeLoop, List.any_eq_true, List.mem_range]
    refine ⟨d, hdlt, ?_⟩
    simp only [Bool.or_eq_true, decide_eq_true_eq]
    exact hbad
  · intro h8 h16
    apply hmain
    simp only [parseOptionsChecks, Bool.or_eq_true, Bool.and_eq_true]
    exact Or.inl (Or.inr ⟨h8, h16⟩)
  · intro hraw hrest
    apply hmain
    simp only [parseOptionsChecks, Bool.or_eq_true, Bool.and_eq_true, Bool.not_eq_true',
      decide_eq_true_eq]
    refine Or.inl (Or.inl (Or.inr ⟨by tauto, ?_⟩))
    rcases hrest with hR | hR
    · exact Or.inl (by simpa using hR)
    · exact Or.inr hR
  · intro h1
    by_cases hc : parseOptionsChecks o = true
    · simp [mainModel, hc]
    · exfalso
      have hc2 : parseOptionsChecks o = false := by
        cases hx : parseOptionsChecks o
        · rfl
        · exact absurd hx hc
      rw [mainModel] at h1
      rw [hc2] at h1
      simp only [Bool.false_eq_true, if_false] at h1
      split at h1 <;> simp_all
      split at h1 <;> split at h1 <;> simp_all

theorem C2_config_validation_witness :
    mainModel
        { dims := 0, relativeFlag := false, raw8Flag := false, raw16Flag := false,
          omitFlag := false, lowArr := [], hiArr := [], binArr := [] } [] =
      ProgResult.confErr ∧
    mainModel
        { dims := 1, relativeFlag := false, raw8Flag := false, raw16Flag := false,
          omitFlag := false, lowArr := [5], hiArr := [3], binArr := [4] } [] =
      ProgResult.confErr ∧
    mainModel
        { dims := 2, relativeFlag := true, raw8Flag := true, raw16Flag := true,
          omitFlag := false, lowArr := [0, 0], hiArr := [1, 1], binArr := [2, 2] } [] =
      ProgResult.confErr ∧
    mainModel
        { dims := 1, relativeFlag := true, raw8Flag := true, raw16Flag := false,
          omitFlag := false, lowArr := [0], hiArr := [1], binArr := [2] } [] =
      ProgResult.confErr :=
  ⟨(C2_config_validation _ [] []).1 (Or.inl (by decide)),
    (C2_config_validation _ [] []).2.1 ⟨0, by decide, Or.inl (by decide)⟩,
    (C2_config_validation _ [] []).2.2.1 rfl rfl,
    (C2_config_validation _ [] []).2.2.2.1 (Or.inl rfl) (Or.inl (by decide))⟩

/-- C2 counterexample: the boundary-trim flag together with raw8 mode (with
relative mode on, 2 dimensions and valid per-dimension arguments) passes the
`parseOptions` sanity checks — the run proceeds past option validation into
the import phase instead of ending in the configuration-error state. -/
theorem C2_config_validation_counterexample :
    parseOptionsChecks
        { dims := 2, relativeFlag := true, raw8Flag := true, raw16Flag := false,
          omitFlag := true, lowArr := [0, 0], hiArr := [1, 1], binArr := [2, 2] } = false ∧
    mainModel
        { dims := 2, relativeFlag := true, raw8Flag := true, raw16Flag := false,
          omitFlag := true, lowArr := [0, 0], hiArr := [1, 1], binArr := [2, 2] } [] =
      ProgResult.emptyErr ∧
    ProgResult.emptyErr ≠ ProgResult.confErr := by
  refine ⟨by decide, ?_, by decide⟩
  decide
